import Mathlib

/-!
Shallow embedding of the mtcnn face-detection repository
(`src/mtcnn.rs` and `src/main.rs`) and proofs about the claims of its
specification.

Modeling conventions:
* `f32` values are modeled as exact rationals (`ℚ`).  The code performs no
  floating-point arithmetic other than subtraction of box coordinates and
  numeric casts, and `u8 -> f32` casts are exact, so the rational model is
  faithful for the properties stated here.
* `u8` channel samples are modeled as `Nat`.
* A Rust panic (slice index out of bounds in the parse loop, or the
  `width > 0 && height > 0` assertion inside imageproc's `Rect::of_size`)
  is modeled by an `Option` result being `none`.
* Rust saturating numeric casts (`as u32`, `as i32` on floats) are modeled
  by explicit truncation-toward-zero functions with saturation.
-/

/-- The `Rgba<u8>` pixel type of the `image` crate: channel order `[r, g, b, a]`. -/
structure Rgba where
  r : Nat
  g : Nat
  b : Nat
  a : Nat
  deriving DecidableEq

/-- A decoded raster image (`image::DynamicImage`): dimensions plus row-major
pixel data (`data.length = width * height`, row `y` stored before row `y+1`). -/
structure Image where
  width : Nat
  height : Nat
  data : List Rgba
  deriving DecidableEq

/-- `BBox` struct from `src/mtcnn.rs` lines 23-29 (fields in declaration order
`x1, y1, x2, y2, prob`). -/
structure BBox where
  x1 : ℚ
  y1 : ℚ
  x2 : ℚ
  y2 : ℚ
  prob : ℚ
  deriving DecidableEq

/-- `LINE_COLOUR` from `src/mtcnn.rs` lines 32-34: `Rgba { data: [0, 255, 0, 0] }`,
i.e. `r = 0, g = 255, b = 0, a = 0`. -/
def LINE_COLOUR : Rgba := ⟨0, 255, 0, 0⟩

/-- The pixel of `img` at coordinates `(x, y)` (out-of-range reads return an
all-zero pixel; all uses below stay in range). -/
def Image.pixelAt (img : Image) (x y : Nat) : Rgba :=
  img.data.getD (y * img.width + x) ⟨0, 0, 0, 0⟩

/-- The pixel iterator `img.pixels()` of the `image` crate: yields
`(x, y, pixel)` in row-major order, `y` outer and `x` inner. -/
def Image.pixels (img : Image) : List (Nat × Nat × Rgba) :=
  (List.range img.height).flatMap
    (fun y => (List.range img.width).map (fun x => (x, y, img.pixelAt x y)))

/-- The input-flattening loop of `Mtcnn::run` (`src/mtcnn.rs` lines 80-90):
for each pixel `rgb` in iteration order push `rgb[2], rgb[1], rgb[0]`
(`b`, `g`, `r`; the alpha channel is never read), each cast `u8 as f32`. -/
def toEngineInput (img : Image) : List ℚ :=
  img.pixels.flatMap (fun p => [(p.2.2.b : ℚ), (p.2.2.g : ℚ), (p.2.2.r : ℚ)])

/-- The output-parsing loop of `Mtcnn::run` (`src/mtcnn.rs` lines 127-148):
`while i < bbox_res.len()` push `BBox { y1: bbox_res[i], x1: bbox_res[i+1],
y2: bbox_res[i+2], x2: bbox_res[i+3], prob: prob_res[j] }`, stepping `i` by 4
and `j` by 1.  Anonymous-constructor field order below is `x1, y1, x2, y2, prob`.
`none` models the index-out-of-bounds panic that the loop hits when fewer than
4 box values or no score value is left while `i < bbox_res.len()`; scores past
the last consumed index are silently ignored, exactly as in the loop. -/
def fromEngineOutput : List ℚ → List ℚ → Option (List BBox)
  | [], _ => some []
  | yA :: xA :: yB :: xB :: rest, p :: ps =>
    (fromEngineOutput rest ps).map (fun l => ⟨xA, yA, xB, yB, p⟩ :: l)
  | _, _ => none

/-- Rust saturating `f32 as u32` cast (modeled on ℚ): truncation toward zero,
with negative values mapped to `0` and values above `u32::MAX` saturated. -/
def rustCastToU32 (x : ℚ) : Nat :=
  if x ≤ 0 then 0 else min (Int.toNat ⌊x⌋) (2 ^ 32 - 1)

/-- Rust saturating `f32 as i32` cast (modeled on ℚ): truncation toward zero
(floor for positive values, ceiling for negative ones), saturated to the
`i32` range. -/
def rustCastToI32 (x : ℚ) : Int :=
  if x ≤ 0 then max (-(2 ^ 31)) ⌈x⌉ else min (2 ^ 31 - 1) ⌊x⌋

/-- `imageproc::rect::Rect`: position of the top-left corner plus a strictly
positive size (positivity is enforced by `rectOf` below, mirroring the
assertion in `Rect::of_size`). -/
structure Rect where
  left : Int
  top : Int
  width : Nat
  height : Nat
  deriving DecidableEq

/-- `Rect::right()`: the largest x-coordinate covered by the rectangle. -/
def Rect.right (rec : Rect) : Int := rec.left + (rec.width : Int) - 1

/-- `Rect::bottom()`: the largest y-coordinate covered by the rectangle. -/
def Rect.bottom (rec : Rect) : Int := rec.top + (rec.height : Int) - 1

/-- The rectangle construction inside `overlay` (`src/mtcnn.rs` lines 42-43):
`Rect::at(bbox.x1 as i32, bbox.y1 as i32).of_size((bbox.x2 - bbox.x1) as u32,
(bbox.y2 - bbox.y1) as u32)`.  imageproc's `Rect::of_size` asserts that both
sizes are strictly positive; `none` models that assertion panicking. -/
def rectOf (bbox : BBox) : Option Rect :=
  let w := rustCastToU32 (bbox.x2 - bbox.x1)
  let h := rustCastToU32 (bbox.y2 - bbox.y1)
  if w = 0 ∨ h = 0 then none
  else some ⟨rustCastToI32 bbox.x1, rustCastToI32 bbox.y1, w, h⟩

/-- Write one pixel, clipped to the image bounds (imageproc's line drawing
only writes coordinates that lie inside the canvas). -/
def Image.putPixel (img : Image) (x y : Int) (c : Rgba) : Image :=
  if 0 ≤ x ∧ x < (img.width : Int) ∧ 0 ≤ y ∧ y < (img.height : Int) then
    ⟨img.width, img.height, img.data.set (y.toNat * img.width + x.toNat) c⟩
  else img

/-- Clipped horizontal line segment from `(x0, y)` to `(x1, y)` inclusive. -/
def Image.drawHLine (img : Image) (x0 x1 y : Int) (c : Rgba) : Image :=
  (List.range (x1 + 1 - x0).toNat).foldl
    (fun im (d : Nat) => im.putPixel (x0 + (d : Int)) y c) img

/-- Clipped vertical line segment from `(x, y0)` to `(x, y1)` inclusive. -/
def Image.drawVLine (img : Image) (x y0 y1 : Int) (c : Rgba) : Image :=
  (List.range (y1 + 1 - y0).toNat).foldl
    (fun im (d : Nat) => im.putPixel x (y0 + (d : Int)) c) img

/-- imageproc's `draw_hollow_rect_mut`: draws the four border line segments
(top, bottom, left, right), each clipped to the image bounds. -/
def draw_hollow_rect (img : Image) (rec : Rect) (c : Rgba) : Image :=
  ((((img.drawHLine rec.left rec.right rec.top c).drawHLine
    rec.left rec.right rec.bottom c).drawVLine
    rec.left rec.top rec.bottom c).drawVLine
    rec.right rec.top rec.bottom c)

/-- `img.clone()`: a fresh raster with identical bytes. -/
def Image.clone (img : Image) : Image := img

/-- `overlay` from `src/mtcnn.rs` lines 36-50: clone the input image, then for
each bounding box build a `Rect` and draw its outline in `LINE_COLOUR`.
`none` models the panic raised by `Rect::of_size` on a zero size. -/
def overlay (img : Image) (bboxes : List BBox) : Option Image :=
  bboxes.foldl
    (fun acc bbox => acc.bind
      (fun im => (rectOf bbox).map (fun rec => draw_hollow_rect im rec LINE_COLOUR)))
    (some img.clone)

/-- The `Mtcnn` session state relevant to the claims: the three fixed
hyperparameter tensors created in `Mtcnn::new` (`src/mtcnn.rs` lines 65-67).
The graph and session handles are opaque engine state with no bearing on the
values fed.  All fields are immutable after construction (`run` takes
`&self`). -/
structure Mtcnn where
  min_size : List ℚ
  thresholds : List ℚ
  factor : List ℚ
  deriving DecidableEq

/-- `Mtcnn::new` (`src/mtcnn.rs` lines 53-76): `min_size = [40.0]`,
`thresholds = [0.6, 0.7, 0.7]`, `factor = [0.709]` (decimal f32 literals
modeled as the exact rationals they denote). -/
def Mtcnn.new : Mtcnn := ⟨[40], [6/10, 7/10, 7/10], [709/1000]⟩

/-- The four feeds that `Mtcnn::run` binds on every call
(`src/mtcnn.rs` lines 95-112), in feed order: the three hyperparameter
tensors read from `self`, then the per-call `input` tensor built by the
flattening loop. -/
def Mtcnn.runFeeds (m : Mtcnn) (img : Image) : List (String × List ℚ) :=
  [("min_size", m.min_size), ("thresholds", m.thresholds), ("factor", m.factor),
   ("input", toEngineInput img)]

/-- The inline pixel-flattening loop of the CLI (`src/main.rs` lines 48-54),
transcribed independently of `toEngineInput`. -/
def mainFlattened (img : Image) : List ℚ :=
  img.pixels.flatMap (fun p => [(p.2.2.b : ℚ), (p.2.2.g : ℚ), (p.2.2.r : ℚ)])

/-- The inline BBox-parsing loop of the CLI (`src/main.rs` lines 89-110),
transcribed independently of `fromEngineOutput`; the loop body is textually
identical to the one in `Mtcnn::run`. -/
def mainFromEngineOutput : List ℚ → List ℚ → Option (List BBox)
  | [], _ => some []
  | yA :: xA :: yB :: xB :: rest, p :: ps =>
    (mainFromEngineOutput rest ps).map (fun l => ⟨xA, yA, xB, yB, p⟩ :: l)
  | _, _ => none

/-- A concrete 3×2 image used by witnesses and counterexamples. -/
def exImg : Image :=
  ⟨3, 2, [⟨1, 2, 3, 255⟩, ⟨4, 5, 6, 255⟩, ⟨7, 8, 9, 255⟩,
    ⟨10, 11, 12, 255⟩, ⟨13, 14, 15, 255⟩, ⟨16, 17, 18, 255⟩]⟩

/-- C1: the parse loop of `Mtcnn::run`, on well-formed engine output
(`len(boxes) = 4*N`, `len(scores) = N`), returns exactly `N` boxes in input
index order, the `i`-th being
`{ y1 = boxes[4i], x1 = boxes[4i+1], y2 = boxes[4i+2], x2 = boxes[4i+3],
prob = scores[i] }`. -/
theorem fromEngineOutput_wellFormed (boxes scores : List ℚ) (N : Nat)
    (hb : boxes.length = 4 * N) (hs : scores.length = N) :
    ∃ l, fromEngineOutput boxes scores = some l ∧ l.length = N ∧
      ∀ i, i < N →
        l[i]? = some ⟨boxes.getD (4 * i + 1) 0, boxes.getD (4 * i) 0,
          boxes.getD (4 * i + 3) 0, boxes.getD (4 * i + 2) 0, scores.getD i 0⟩ := by
  induction N generalizing boxes scores with
  | zero =>
    have : boxes = [] := List.length_eq_zero.mp (by omega)
    subst this
    exact ⟨[], rfl, rfl, fun i hi => absurd hi (by omega)⟩
  | succ n ih =>
    rcases boxes with _ | ⟨a, _ | ⟨b, _ | ⟨c, _ | ⟨d, rest⟩⟩⟩⟩ <;>
      simp only [List.length_cons, List.length_nil] at hb <;> try omega
    rcases scores with _ | ⟨p, ps⟩ <;>
      simp only [List.length_cons, List.length_nil] at hs <;> try omega
    obtain ⟨l, hl, hlen, hidx⟩ := ih rest ps (by omega) (by omega)
    refine ⟨⟨b, a, d, c, p⟩ :: l, ?_, by simp [hlen], ?_⟩
    · simp [fromEngineOutput, hl]
    · intro i hi
      cases i with
      | zero => simp
      | succ j =>
        have hj : j < n := by omega
        have hrec := hidx j hj
        have e0 : 4 * (j + 1) = 4 * j + 1 + 1 + 1 + 1 := by ring
        have e1 : 4 * (j + 1) + 1 = 4 * j + 1 + 1 + 1 + 1 + 1 := by ring
        have e2 : 4 * (j + 1) + 2 = 4 * j + 2 + 1 + 1 + 1 + 1 := by ring
        have e3 : 4 * (j + 1) + 3 = 4 * j + 3 + 1 + 1 + 1 + 1 := by ring
        simp only [List.getElem?_cons_succ, hrec, e0, e1, e2, e3,
          List.getD_cons_succ]

/-- Closed witness for `fromEngineOutput_wellFormed` at concrete well-formed
engine output with `N = 2`. -/
theorem fromEngineOutput_wellFormed_witness :
    ∃ l, fromEngineOutput ([1, 2, 3, 4, 5, 6, 7, 8] : List ℚ) [9, 10] = some l ∧
      l.length = 2 ∧
      ∀ i, i < 2 →
        l[i]? = some ⟨([1, 2, 3, 4, 5, 6, 7, 8] : List ℚ).getD (4 * i + 1) 0,
          ([1, 2, 3, 4, 5, 6, 7, 8] : List ℚ).getD (4 * i) 0,
          ([1, 2, 3, 4, 5, 6, 7, 8] : List ℚ).getD (4 * i + 3) 0,
          ([1, 2, 3, 4, 5, 6, 7, 8] : List ℚ).getD (4 * i + 2) 0,
          ([9, 10] : List ℚ).getD i 0⟩ :=
  fromEngineOutput_wellFormed [1, 2, 3, 4, 5, 6, 7, 8] [9, 10] 2 (by decide) (by decide)

/-- C2 counterexample: the output-parsing loop has no `MalformedEngineOutput`
error path at all.  At `boxes = [1,2,3,4]`, `scores = [5,6]` we have
`len(boxes)/4 = 1 ≠ 2 = len(scores)`, yet the loop succeeds, returning one
box and silently ignoring the extra score — it does not fail. -/
theorem fromEngineOutput_no_malformed_error_counterexample :
    ([1, 2, 3, 4] : List ℚ).length / 4 ≠ ([5, 6] : List ℚ).length ∧
    fromEngineOutput ([1, 2, 3, 4] : List ℚ) [5, 6] = some [⟨2, 1, 4, 3, 5⟩] :=
  ⟨by decide, rfl⟩

/-- C2 (amended): the parse loop of `Mtcnn::run` never produces a
`MalformedEngineOutput` error (no such error exists in the code).  When
`len(boxes) % 4 ≠ 0`, or fewer than `len(boxes)/4` scores are available, it
panics with a slice index out of bounds (modeled as `none`); when
`len(boxes) % 4 = 0` and at least `len(boxes)/4` scores are available it
succeeds, ignoring any extra scores. -/
theorem fromEngineOutput_malformed_behavior (boxes scores : List ℚ) :
    (boxes.length % 4 ≠ 0 ∨ scores.length < boxes.length / 4 →
      fromEngineOutput boxes scores = none) ∧
    (boxes.length % 4 = 0 → boxes.length / 4 ≤ scores.length →
      (fromEngineOutput boxes scores).isSome) := by
  induction boxes, scores using fromEngineOutput.induct with
  | case1 s => exact ⟨fun h => by simp at h, fun _ _ => rfl⟩
  | case2 yA xA yB xB rest p ps ih =>
    constructor
    · intro h
      have : rest.length % 4 ≠ 0 ∨ ps.length < rest.length / 4 := by
        simp only [List.length_cons] at h; omega
      simp [fromEngineOutput, ih.1 this]
    · intro h1 h2
      simp only [List.length_cons] at h1 h2
      obtain ⟨l, hl⟩ := Option.isSome_iff_exists.mp (ih.2 (by omega) (by omega))
      simp [fromEngineOutput, hl]
  | case3 boxes scores h1 h2 =>
    constructor
    · intro h
      rcases boxes with _ | ⟨a, _ | ⟨b, _ | ⟨c, _ | ⟨d, rest⟩⟩⟩⟩
      · exact absurd rfl h1
      · rfl
      · rfl
      · rfl
      · rcases scores with _ | ⟨p, ps⟩
        · rfl
        · exact (h2 a b c d rest p ps rfl rfl).elim
    · intro ha hb
      rcases boxes with _ | ⟨a, _ | ⟨b, _ | ⟨c, _ | ⟨d, rest⟩⟩⟩⟩
      · exact absurd rfl h1
      · simp only [List.length_cons, List.length_nil] at ha; omega
      · simp only [List.length_cons, List.length_nil] at ha; omega
      · simp only [List.length_cons, List.length_nil] at ha; omega
      · rcases scores with _ | ⟨p, ps⟩
        · simp only [List.length_cons, List.length_nil] at hb; omega
        · exact (h2 a b c d rest p ps rfl rfl).elim

/-- Closed witness for `fromEngineOutput_malformed_behavior`: three box values
(not a multiple of 4) panic; four box values with two scores succeed. -/
theorem fromEngineOutput_malformed_behavior_witness :
    fromEngineOutput ([1, 2, 3] : List ℚ) [4] = none ∧
    (fromEngineOutput ([1, 2, 3, 4] : List ℚ) [5, 6]).isSome :=
  ⟨(fromEngineOutput_malformed_behavior [1, 2, 3] [4]).1 (Or.inl (by decide)),
   (fromEngineOutput_malformed_behavior [1, 2, 3, 4] [5, 6]).2 (by decide) (by decide)⟩

/-- Row-major double iteration (`y` outer, `x` inner) enumerates the same
values as a single scan indexed by `k`, with `x = k % W` and `y = k / W`. -/
theorem grid_flatMap_eq {α : Type} (H W : Nat) (f : Nat → Nat → α) :
    (List.range H).flatMap (fun y => (List.range W).map (fun x => f x y)) =
    (List.range (H * W)).map (fun k => f (k % W) (k / W)) := by
  induction H with
  | zero => simp
  | succ n ih =>
    rw [List.range_succ, List.flatMap_append, ih, Nat.succ_mul, List.range_add,
      List.map_append, List.flatMap_cons, List.flatMap_nil, List.append_nil,
      List.map_map]
    congr 1
    apply List.map_congr_left
    intro x hx
    have hxW : x < W := List.mem_range.mp hx
    have h1 : (n * W + x) % W = x := by
      rw [Nat.add_comm, Nat.add_mul_mod_self_right, Nat.mod_eq_of_lt hxW]
    have h2 : (n * W + x) / W = n := by
      rw [Nat.add_comm, Nat.add_mul_div_right _ _ (by omega), Nat.div_eq_of_lt hxW]
      omega
    simp [h1, h2]

/-- A flat-map whose blocks all have length 3 triples the list length. -/
theorem flatMap_const3_length {α β : Type} (l : List α) (f : α → List β)
    (hf : ∀ a, (f a).length = 3) : (l.flatMap f).length = 3 * l.length := by
  induction l with
  | nil => simp
  | cons a t ih => simp [List.flatMap_cons, hf a, ih]; ring

/-- Dropping `3 * k` elements of a length-3-block flat-map drops `k` blocks. -/
theorem flatMap_const3_drop {α β : Type} (f : α → List β)
    (hf : ∀ a, (f a).length = 3) :
    ∀ (k : Nat) (l : List α), k ≤ l.length →
      (l.flatMap f).drop (3 * k) = (l.drop k).flatMap f := by
  intro k
  induction k with
  | zero => intro l _; simp
  | succ j ih =>
    intro l hl
    rcases l with _ | ⟨a, t⟩
    · simp at hl
    · have e : 3 * (j + 1) = (f a).length + 3 * j := by rw [hf a]; ring
      rw [List.flatMap_cons, e, List.drop_append, ih t (by simpa using hl)]
      simp

/-- The flattening loop expressed as a single scan over pixel indices `k`. -/
theorem toEngineInput_eq (img : Image) :
    toEngineInput img = (List.range (img.height * img.width)).flatMap
      (fun k => [((img.pixelAt (k % img.width) (k / img.width)).b : ℚ),
        ((img.pixelAt (k % img.width) (k / img.width)).g : ℚ),
        ((img.pixelAt (k % img.width) (k / img.width)).r : ℚ)]) := by
  rw [toEngineInput, Image.pixels,
    grid_flatMap_eq img.height img.width (fun x y => (x, y, img.pixelAt x y)),
    List.flatMap_map]

/-- C3: the input-flattening loop of `Mtcnn::run` produces a buffer of length
exactly `3 * H * W`, and for every pixel index `k` in row-major scan order
(coordinates `x = k % W`, `y = k / W`) the values at offsets `3k`, `3k+1`,
`3k+2` are that pixel's `b`, `g`, `r` channel samples in that order (the alpha
channel is dropped). -/
theorem toEngineInput_layout (img : Image) :
    (toEngineInput img).length = 3 * (img.height * img.width) ∧
    ∀ k, k < img.height * img.width →
      (toEngineInput img)[3 * k]? =
        some ((img.pixelAt (k % img.width) (k / img.width)).b : ℚ) ∧
      (toEngineInput img)[3 * k + 1]? =
        some ((img.pixelAt (k % img.width) (k / img.width)).g : ℚ) ∧
      (toEngineInput img)[3 * k + 2]? =
        some ((img.pixelAt (k % img.width) (k / img.width)).r : ℚ) := by
  set t : Nat → List ℚ := fun k => [((img.pixelAt (k % img.width) (k / img.width)).b : ℚ),
    ((img.pixelAt (k % img.width) (k / img.width)).g : ℚ),
    ((img.pixelAt (k % img.width) (k / img.width)).r : ℚ)] with ht
  have ht3 : ∀ k, (t k).length = 3 := fun _ => rfl
  have heq := toEngineInput_eq img
  constructor
  · rw [heq, flatMap_const3_length _ _ ht3, List.length_range]
  · intro k hk
    have hdrop : (toEngineInput img).drop (3 * k) =
        ((List.range (img.height * img.width)).drop k).flatMap t := by
      rw [heq]
      exact flatMap_const3_drop t ht3 k _ (by simpa using Nat.le_of_lt hk)
    have hcons : (List.range (img.height * img.width)).drop k =
        k :: (List.range (img.height * img.width)).drop (k + 1) := by
      have hk' : k < (List.range (img.height * img.width)).length := by simpa using hk
      rw [List.drop_eq_getElem_cons hk', List.getElem_range]
    rw [hcons, List.flatMap_cons] at hdrop
    have key : ∀ j, j < 3 → (toEngineInput img)[3 * k + j]? = (t k)[j]? := by
      intro j hj
      rw [← List.getElem?_drop, hdrop, List.getElem?_append_left (by rw [ht3]; omega)]
    exact ⟨by have := key 0 (by omega); rwa [Nat.add_zero] at this,
      key 1 (by omega), key 2 (by omega)⟩

/-- Closed witness for `toEngineInput_layout` on the concrete 3×2 image,
at pixel index `k = 4` (coordinates `x = 1`, `y = 1`). -/
theorem toEngineInput_layout_witness :
    (toEngineInput exImg).length = 3 * (exImg.height * exImg.width) ∧
    ((toEngineInput exImg)[3 * 4]? = some ((exImg.pixelAt 1 1).b : ℚ) ∧
     (toEngineInput exImg)[3 * 4 + 1]? = some ((exImg.pixelAt 1 1).g : ℚ) ∧
     (toEngineInput exImg)[3 * 4 + 2]? = some ((exImg.pixelAt 1 1).r : ℚ)) :=
  ⟨(toEngineInput_layout exImg).1, (toEngineInput_layout exImg).2 4 (by decide)⟩

/-- `putPixel` never changes the image dimensions or the pixel-buffer length
(out-of-bounds writes are clipped; in-bounds writes use `List.set`). -/
theorem putPixel_dims (img : Image) (x y : Int) (c : Rgba) :
    (img.putPixel x y c).width = img.width ∧
    (img.putPixel x y c).height = img.height ∧
    (img.putPixel x y c).data.length = img.data.length := by
  rw [Image.putPixel]
  split
  · exact ⟨rfl, rfl, img.data.length_set _ _⟩
  · exact ⟨rfl, rfl, rfl⟩

/-- Folding a dimension-preserving pixel writer preserves the dimensions. -/
theorem foldl_putPixel_dims (step : Image → Nat → Image)
    (hstep : ∀ im d, (step im d).width = im.width ∧ (step im d).height = im.height ∧
      (step im d).data.length = im.data.length) :
    ∀ (l : List Nat) (img : Image),
      (l.foldl step img).width = img.width ∧
      (l.foldl step img).height = img.height ∧
      (l.foldl step img).data.length = img.data.length
  | [], _ => ⟨rfl, rfl, rfl⟩
  | d :: t, img => by
    have h1 := hstep img d
    have h2 := foldl_putPixel_dims step hstep t (step img d)
    simp only [List.foldl_cons]
    exact ⟨h2.1.trans h1.1, h2.2.1.trans h1.2.1, h2.2.2.trans h1.2.2⟩

/-- `draw_hollow_rect` preserves the image dimensions and buffer length:
all four border lines are clipped to the canvas. -/
theorem draw_hollow_rect_dims (img : Image) (rec : Rect) (c : Rgba) :
    (draw_hollow_rect img rec c).width = img.width ∧
    (draw_hollow_rect img rec c).height = img.height ∧
    (draw_hollow_rect img rec c).data.length = img.data.length := by
  have hH : ∀ (x0 x1 y : Int) (im : Image),
      (im.drawHLine x0 x1 y c).width = im.width ∧
      (im.drawHLine x0 x1 y c).height = im.height ∧
      (im.drawHLine x0 x1 y c).data.length = im.data.length := by
    intro x0 x1 y im
    rw [Image.drawHLine]
    exact foldl_putPixel_dims _ (fun im2 d => putPixel_dims im2 (x0 + d) y c) _ im
  have hV : ∀ (x y0 y1 : Int) (im : Image),
      (im.drawVLine x y0 y1 c).width = im.width ∧
      (im.drawVLine x y0 y1 c).height = im.height ∧
      (im.drawVLine x y0 y1 c).data.length = im.data.length := by
    intro x y0 y1 im
    rw [Image.drawVLine]
    exact foldl_putPixel_dims _ (fun im2 d => putPixel_dims im2 x (y0 + d) c) _ im
  rw [draw_hollow_rect]
  have a1 := hH rec.left rec.right rec.top img
  have a2 := hH rec.left rec.right rec.bottom
    (img.drawHLine rec.left rec.right rec.top c)
  have a3 := hV rec.left rec.top rec.bottom
    ((img.drawHLine rec.left rec.right rec.top c).drawHLine
      rec.left rec.right rec.bottom c)
  have a4 := hV rec.right rec.top rec.bottom
    (((img.drawHLine rec.left rec.right rec.top c).drawHLine
      rec.left rec.right rec.bottom c).drawVLine rec.left rec.top rec.bottom c)
  exact ⟨(a4.1.trans a3.1).trans (a2.1.trans a1.1),
    (a4.2.1.trans a3.2.1).trans (a2.2.1.trans a1.2.1),
    (a4.2.2.trans a3.2.2).trans (a2.2.2.trans a1.2.2)⟩

/-- Unfolding `overlay` one bounding box at a time when `of_size` succeeds. -/
theorem overlay_cons (img : Image) (b : BBox) (bs : List BBox) (rec : Rect)
    (hr : rectOf b = some rec) :
    overlay img (b :: bs) = overlay (draw_hollow_rect img rec LINE_COLOUR) bs := by
  simp [overlay, Image.clone, hr]

/-- C4 (amended): for every box list in which each box has nonzero truncated
width and height, `overlay` returns normally (no panic), drawing clipped to
the canvas so the output raster keeps the input's dimensions and buffer
length (no out-of-bounds access).  Boxes with zero truncated width or height
— in particular `x2 ≤ x1` or `y2 ≤ y1` — instead panic, see the
counterexample. -/
theorem overlay_no_panic (img : Image) (bboxes : List BBox)
    (h : ∀ b ∈ bboxes, rustCastToU32 (b.x2 - b.x1) ≠ 0 ∧
      rustCastToU32 (b.y2 - b.y1) ≠ 0) :
    ∃ out, overlay img bboxes = some out ∧ out.width = img.width ∧
      out.height = img.height ∧ out.data.length = img.data.length := by
  induction bboxes generalizing img with
  | nil => exact ⟨img, rfl, rfl, rfl, rfl⟩
  | cons b bs ih =>
    obtain ⟨hw, hh⟩ := h b (List.mem_cons_self b bs)
    have hr : rectOf b = some ⟨rustCastToI32 b.x1, rustCastToI32 b.y1,
        rustCastToU32 (b.x2 - b.x1), rustCastToU32 (b.y2 - b.y1)⟩ := by
      simp [rectOf, hw, hh]
    rw [overlay_cons img b bs ⟨rustCastToI32 b.x1, rustCastToI32 b.y1,
      rustCastToU32 (b.x2 - b.x1), rustCastToU32 (b.y2 - b.y1)⟩ hr]
    obtain ⟨out, ho, h1, h2, h3⟩ := ih
      (draw_hollow_rect img ⟨rustCastToI32 b.x1, rustCastToI32 b.y1,
        rustCastToU32 (b.x2 - b.x1), rustCastToU32 (b.y2 - b.y1)⟩ LINE_COLOUR)
      (fun x hx => h x (List.mem_cons_of_mem b hx))
    have hd := draw_hollow_rect_dims img ⟨rustCastToI32 b.x1, rustCastToI32 b.y1,
      rustCastToU32 (b.x2 - b.x1), rustCastToU32 (b.y2 - b.y1)⟩ LINE_COLOUR
    exact ⟨out, ho, h1.trans hd.1, h2.trans hd.2.1, h3.trans hd.2.2⟩

/-- C4 counterexample: a degenerate box with `x2 < x1` makes `overlay` panic:
its width casts to `0`, and imageproc's `Rect::of_size` asserts a strictly
positive size (`none` models that panic), contradicting "does not panic". -/
theorem overlay_degenerate_box_counterexample :
    (⟨10, 10, 5, 20, 9/10⟩ : BBox).x2 < (⟨10, 10, 5, 20, 9/10⟩ : BBox).x1 ∧
    overlay exImg [⟨10, 10, 5, 20, 9/10⟩] = none := by
  constructor
  · show (5 : ℚ) < 10
    norm_num
  · have hw : rustCastToU32 ((5 : ℚ) - 10) = 0 := by
      rw [rustCastToU32, if_pos (by norm_num : (5 : ℚ) - 10 ≤ 0)]
    simp [overlay, rectOf, hw]

/-- Evaluation helper: the truncating cast of the concrete width `10 - 0`. -/
theorem rustCastToU32_ten_sub_zero : rustCastToU32 ((10 : ℚ) - 0) ≠ 0 := by
  rw [rustCastToU32, if_neg (by norm_num : ¬((10 : ℚ) - 0 ≤ 0))]
  norm_num

/-- Closed witness for `overlay_no_panic` at a concrete nondegenerate box. -/
theorem overlay_no_panic_witness :
    ∃ out, overlay exImg [⟨0, 0, 10, 10, 1⟩] = some out ∧
      out.width = exImg.width ∧ out.height = exImg.height ∧
      out.data.length = exImg.data.length :=
  overlay_no_panic exImg [⟨0, 0, 10, 10, 1⟩] (by
    intro b hb
    rw [List.mem_singleton] at hb
    subst hb
    exact ⟨rustCastToU32_ten_sub_zero, rustCastToU32_ten_sub_zero⟩)

/-- C5 counterexample: the drawn rectangle's origin is NOT `(round(x1),
round(y1))`.  For the box with `x1 = 2.7` the code's `as i32` cast truncates
to `2`, while rounding gives `3`. -/
theorem rectOf_truncates_not_rounds_counterexample :
    rectOf ⟨27/10, 0, 10, 10, 1⟩ = some ⟨2, 0, 7, 10⟩ ∧
    round ((27 : ℚ)/10) = 3 ∧ ((2 : ℤ) ≠ round ((27 : ℚ)/10)) := by
  have ha : rustCastToI32 (27/10 : ℚ) = 2 := by
    rw [rustCastToI32, if_neg (by norm_num : ¬((27/10 : ℚ) ≤ 0))]
    norm_num
  have hb : rustCastToI32 (0 : ℚ) = 0 := by
    rw [rustCastToI32, if_pos (by norm_num : (0 : ℚ) ≤ 0)]
    norm_num
  have hc : rustCastToU32 ((10 : ℚ) - 27/10) = 7 := by
    rw [rustCastToU32, if_neg (by norm_num : ¬((10 : ℚ) - 27/10 ≤ 0))]
    norm_num
    rfl
  have hd : rustCastToU32 ((10 : ℚ) - 0) = 10 := by
    rw [rustCastToU32, if_neg (by norm_num : ¬((10 : ℚ) - 0 ≤ 0))]
    norm_num
    rfl
  refine ⟨?_, by rw [round_eq]; norm_num, by rw [round_eq]; norm_num⟩
  show rectOf ⟨27/10, 0, 10, 10, 1⟩ = some ⟨2, 0, 7, 10⟩
  simp only [rectOf]
  rw [show (⟨27/10, 0, 10, 10, 1⟩ : BBox).x2 - (⟨27/10, 0, 10, 10, 1⟩ : BBox).x1
      = (10 : ℚ) - 27/10 from rfl,
    show (⟨27/10, 0, 10, 10, 1⟩ : BBox).y2 - (⟨27/10, 0, 10, 10, 1⟩ : BBox).y1
      = (10 : ℚ) - 0 from rfl, hc, hd, ha, hb]
  norm_num

/-- C5 (amended): for every box that gets drawn (truncated width and height
both nonzero, as enforced by `Rect::of_size`), the rectangle's origin is the
truncating saturating `as i32` cast of `(x1, y1)` — truncation toward zero,
not rounding — its size is `x2 - x1` by `y2 - y1` truncated to integer pixel
units by the saturating `as u32` cast, and the outline is drawn with the
fixed colour `LINE_COLOUR = RGBA (0, 255, 0, 0)`. -/
theorem rectOf_origin_size_colour (b : BBox)
    (hw : rustCastToU32 (b.x2 - b.x1) ≠ 0) (hh : rustCastToU32 (b.y2 - b.y1) ≠ 0) :
    rectOf b = some ⟨rustCastToI32 b.x1, rustCastToI32 b.y1,
      rustCastToU32 (b.x2 - b.x1), rustCastToU32 (b.y2 - b.y1)⟩ ∧
    LINE_COLOUR = ⟨0, 255, 0, 0⟩ ∧
    overlay exImg [b] = some (draw_hollow_rect exImg.clone
      ⟨rustCastToI32 b.x1, rustCastToI32 b.y1,
        rustCastToU32 (b.x2 - b.x1), rustCastToU32 (b.y2 - b.y1)⟩ LINE_COLOUR) := by
  have hr : rectOf b = some ⟨rustCastToI32 b.x1, rustCastToI32 b.y1,
      rustCastToU32 (b.x2 - b.x1), rustCastToU32 (b.y2 - b.y1)⟩ := by
    simp [rectOf, hw, hh]
  exact ⟨hr, rfl, by simp [overlay, hr]⟩

/-- Closed witness for `rectOf_origin_size_colour` at a concrete box. -/
theorem rectOf_origin_size_colour_witness :
    rectOf ⟨0, 0, 10, 10, 1⟩ = some ⟨rustCastToI32 0, rustCastToI32 0,
      rustCastToU32 ((10 : ℚ) - 0), rustCastToU32 ((10 : ℚ) - 0)⟩ ∧
    LINE_COLOUR = ⟨0, 255, 0, 0⟩ ∧
    overlay exImg [⟨0, 0, 10, 10, 1⟩] = some (draw_hollow_rect exImg.clone
      ⟨rustCastToI32 0, rustCastToI32 0,
        rustCastToU32 ((10 : ℚ) - 0), rustCastToU32 ((10 : ℚ) - 0)⟩ LINE_COLOUR) :=
  rectOf_origin_size_colour ⟨0, 0, 10, 10, 1⟩
    rustCastToU32_ten_sub_zero rustCastToU32_ten_sub_zero

/-- C6: rendering with an empty box list returns exactly a clone of the input
image, and the clone has the same bytes as the input; the input itself is
never written to (`overlay` only reads `img` to build the clone). -/
theorem overlay_empty_eq_clone (img : Image) :
    overlay img [] = some img.clone ∧ img.clone = img :=
  ⟨rfl, rfl⟩

/-- C7: `overlay` is deterministic — two calls on equal `(image, boxes)`
pairs produce byte-identical results (it is a pure function of its inputs:
no randomness, time, or hidden state). -/
theorem overlay_deterministic (img1 img2 : Image) (bs1 bs2 : List BBox)
    (h1 : img1 = img2) (h2 : bs1 = bs2) :
    overlay img1 bs1 = overlay img2 bs2 := by
  rw [h1, h2]

/-- Closed witness for `overlay_deterministic` at concrete equal inputs. -/
theorem overlay_deterministic_witness :
    overlay exImg [⟨0, 0, 10, 10, 1⟩] = overlay exImg [⟨0, 0, 10, 10, 1⟩] :=
  overlay_deterministic exImg exImg [⟨0, 0, 10, 10, 1⟩] [⟨0, 0, 10, 10, 1⟩] rfl rfl

/-- C8: the hyperparameters are fixed at construction — `min_size = [40]`,
`thresholds = [0.6, 0.7, 0.7]`, `factor = [0.709]` — are never modified
afterwards (`run` takes `&self` and only reads them), and every call of
`Mtcnn::run` feeds exactly those three tensors (plus the per-call input):
the hyperparameter feeds are identical across all calls. -/
theorem mtcnn_hyperparameters_fixed :
    Mtcnn.new.min_size = [40] ∧
    Mtcnn.new.thresholds = [6/10, 7/10, 7/10] ∧
    Mtcnn.new.factor = [709/1000] ∧
    (∀ img : Image, Mtcnn.new.runFeeds img =
      [("min_size", [40]), ("thresholds", [6/10, 7/10, 7/10]),
       ("factor", [709/1000]), ("input", toEngineInput img)]) ∧
    (∀ img1 img2 : Image,
      (Mtcnn.new.runFeeds img1).take 3 = (Mtcnn.new.runFeeds img2).take 3) :=
  ⟨rfl, rfl, rfl, fun _ => rfl, fun _ _ => rfl⟩

/-- C10: the CLI's inline pixel-flattening and BBox-parsing loops compute the
same functions as the corresponding loops in the library core: identical
flattened buffers for every image and identical parse results for every
`(boxes, scores)` pair. -/
theorem main_loops_refine_library :
    (∀ img : Image, mainFlattened img = toEngineInput img) ∧
    (∀ boxes scores : List ℚ,
      mainFromEngineOutput boxes scores = fromEngineOutput boxes scores) := by
  refine ⟨fun img => rfl, ?_⟩
  intro boxes scores
  induction boxes, scores using mainFromEngineOutput.induct with
  | case1 s => rfl
  | case2 yA xA yB xB rest p ps ih =>
    simp only [mainFromEngineOutput, fromEngineOutput, ih]
  | case3 boxes scores h1 h2 =>
    rcases boxes with _ | ⟨a, _ | ⟨b, _ | ⟨c, _ | ⟨d, rest⟩⟩⟩⟩
    · exact absurd rfl h1
    · rfl
    · rfl
    · rfl
    · rcases scores with _ | ⟨p, ps⟩
      · rfl
      · exact (h2 a b c d rest p ps rfl rfl).elim
